import Mathlib

/-!
Verification of the tinychain core against its design specification.

Each section embeds part of the Rust source as executable Lean definitions
and proves (or refutes) the specified properties about them.
-/

namespace Tinychain

/-! ## Error taxonomy (src/error/src/lib.rs) -/

/-- The category of a `TCError` (src/error/src/lib.rs, `enum ErrorType`). -/
inductive ErrorType
  | badRequest
  | conflict
  | forbidden
  | internal
  | methodNotAllowed
  | notFound
  | notImplemented
  | timeout
  | unauthorized
deriving DecidableEq, Repr

/-- A general error description (src/error/src/lib.rs, `struct TCError`). -/
structure TCError where
  code : ErrorType
  message : String
deriving DecidableEq, Repr

/-- Embeds `TCError::bad_request` (src/error/src/lib.rs lines 49-54).
The Rust constructor sets `code: ErrorType::Internal` even though its doc
comment describes a badly-constructed request. -/
def TCError.bad_request (message cause : String) : TCError :=
  { code := ErrorType.internal, message := message ++ ": " ++ cause }

/-- Embeds `TCError::conflict` (src/error/src/lib.rs lines 58-63). -/
def TCError.mkConflict : TCError :=
  { code := ErrorType.conflict, message := "" }

/-- Embeds `TCError::internal` (src/error/src/lib.rs lines 76-81). -/
def TCError.mkInternal (info : String) : TCError :=
  { code := ErrorType.internal, message := info }

/-- Embeds the status-code match of `transform_error`
(src/host/src/http/server.rs lines 249-268), restricted to the nine
`ErrorType` variants declared in src/error/src/lib.rs. (The match in the
server also names a `BadGateway` variant that the error crate in this tree
does not declare.) -/
def transformErrorStatus : ErrorType → Nat
  | ErrorType.badRequest => 400
  | ErrorType.conflict => 409
  | ErrorType.forbidden => 403
  | ErrorType.internal => 500
  | ErrorType.methodNotAllowed => 405
  | ErrorType.notFound => 404
  | ErrorType.notImplemented => 501
  | ErrorType.timeout => 408
  | ErrorType.unauthorized => 401

/-! ## Replication fan-out (src/host/src/route/cluster.rs, `replicate_write`)

`ReplicateHandler::replicate_write` polls a `FuturesUnordered` of one write
future per replica and folds the results.  We embed the loop as a pure
function of the arrival-ordered list of `(replica, result)` pairs, with the
replica links represented by naturals. -/

/-- Result of the replication fan-out loop.  `assertFailure` marks the state
in which `assert!(result.is_err())` in the Rust source would panic:
the quorum check fired immediately after an `Ok` result. -/
inductive FanResult
  | conflictError (e : TCError)
  | quorumError (e : TCError)
  | success (succeeded failed : Finset Nat)
  | assertFailure
deriving DecidableEq

/-- One step per arrived result, embedding the `while let` loop of
`replicate_write` (src/host/src/route/cluster.rs lines 272-283):
a conflict returns at once; any other error joins `failed`; a success joins
`succeeded`; after each result, if `|failed| > max_failures` the loop
asserts the result is an error and returns it. -/
def replicateLoop (maxFailures : Nat) :
    Finset Nat → Finset Nat → List (Nat × Except TCError Unit) → FanResult
  | failed, succeeded, [] => FanResult.success succeeded failed
  | failed, succeeded, (replica, result) :: rest =>
    match result with
    | Except.error cause =>
      if cause.code = ErrorType.conflict then
        FanResult.conflictError cause
      else
        let failed' := insert replica failed
        if maxFailures < failed'.card then FanResult.quorumError cause
        else replicateLoop maxFailures failed' succeeded rest
    | Except.ok _ =>
      let succeeded' := insert replica succeeded
      if maxFailures < failed.card then FanResult.assertFailure
      else replicateLoop maxFailures failed succeeded' rest

/-- Embeds `replicate_write` (src/host/src/route/cluster.rs lines 251-295):
`max_failures = replicas.len() / 2` and the loop starts with empty
`failed` / `succeeded` sets.  `results` lists one entry per replica in
arrival order. -/
def replicateWrite (results : List (Nat × Except TCError Unit)) : FanResult :=
  replicateLoop (results.length / 2) ∅ ∅ results

/-- Embeds the post-loop fan-out (src/host/src/route/cluster.rs lines
286-292): on success, a `DELETE replicas={failed}` request is issued to
every succeeded replica. -/
def issuedDeletes : FanResult → Finset (Nat × Finset Nat)
  | FanResult.success succeeded failed =>
      succeeded.image (fun replica => (replica, failed))
  | _ => ∅

/-- A result that is an error whose kind is `Conflict`. -/
def isConflictRes : Except TCError Unit → Bool
  | Except.error e => e.code = ErrorType.conflict
  | Except.ok _ => false

/-- A result that is a non-conflict error (a quorum-accounting failure). -/
def isFailRes : Except TCError Unit → Bool
  | Except.error e => ¬ e.code = ErrorType.conflict
  | Except.ok _ => false

/-- A successful result. -/
def isOkRes : Except TCError Unit → Bool
  | Except.error _ => false
  | Except.ok _ => true

/-- The number of non-conflict failures in an arrival list. -/
def failCount (l : List (Nat × Except TCError Unit)) : Nat :=
  (l.filter (fun p => isFailRes p.2)).length

/-- The replicas of an arrival list that returned a non-conflict error. -/
def failSet (l : List (Nat × Except TCError Unit)) : Finset Nat :=
  ((l.filter (fun p => isFailRes p.2)).map Prod.fst).toFinset

/-- The replicas of an arrival list that returned success. -/
def okSet (l : List (Nat × Except TCError Unit)) : Finset Nat :=
  ((l.filter (fun p => isOkRes p.2)).map Prod.fst).toFinset

/-! ## BlockChain commit and finalize (src/host/src/chain/blockchain.rs)

`BlockChain` owns a block file of `ChainBlock`s and a `TxnLock<u64>` naming
the currently open block.  The `ChainBlock` type itself lives in
src/host/src/chain/mod.rs, which is not part of this tree, so its content
is modelled from the spec. -/

/-- The seal threshold (src/host/src/chain/blockchain.rs line 24,
`const BLOCK_SIZE: u64 = 1_000_000`). -/
def BLOCK_SIZE : Nat := 1000000

/-- Modelled from the spec: a `ChainBlock` (src/host/src/chain/mod.rs is not
in this tree) is an ordered sequence of mutations preceded by the 32-byte
hash of its predecessor; its size is its serialized byte count.  Each
mutation is represented here by its serialized byte length. -/
structure ChainBlock where
  pastHash : Nat
  mutations : List Nat
deriving DecidableEq

/-- Modelled from the spec: the serialized size of a chain block is the
32-byte predecessor hash plus the total serialized mutation length. -/
def ChainBlock.size (b : ChainBlock) : Nat :=
  32 + b.mutations.sum

/-- Modelled from the spec: `ChainBlock::hash` is a deterministic digest of
the serialized block.  The digest function itself (SHA-256) is opaque to
this development; any deterministic function of the block serves the
properties proved here, which only track which block is hashed. -/
def ChainBlock.contentHash (b : ChainBlock) : Nat :=
  b.pastHash + b.size

/-- Modelled from the spec: `ChainBlock::new(hash)` seeds an empty block
with its predecessor's digest. -/
def ChainBlock.new (hash : Nat) : ChainBlock :=
  { pastHash := hash, mutations := [] }

/-- The transactional view of a `BlockChain` at one `TxnId`: the `latest`
ordinal and the block file's id → block mapping. -/
structure BlockChainState where
  latest : Nat
  file : List (Nat × ChainBlock)
deriving DecidableEq

/-- Embeds the pre-commit step of `BlockChain::commit`
(src/host/src/chain/blockchain.rs lines 118-146): read `latest`, read block
`latest`; if its size is at least `BLOCK_SIZE`, increment `latest` and
create a new block seeded with the sealed block's hash.  `none` models the
`expect` panic when the open block is missing. -/
def BlockChain.commitStep (s : BlockChainState) : Option BlockChainState :=
  match s.file.lookup s.latest with
  | none => none
  | some block =>
    if BLOCK_SIZE ≤ block.size then
      some { latest := s.latest + 1,
             file := (s.latest + 1, ChainBlock.new block.contentHash) :: s.file }
    else
      some s

/-- Modelled from the spec: the state of a `TxnLock` — its committed
versions (txn id, value) and the pending write, if any. -/
structure TxnLockState (V : Type) where
  versions : List (Nat × V)
  pending : Option (Nat × V)
deriving DecidableEq

/-- Modelled from the spec: `commit(txn)` promotes the pending write (if it
belongs to `txn`) to a committed version tagged `txn`. -/
def TxnLockState.commit {V : Type} (s : TxnLockState V) (txn : Nat) : TxnLockState V :=
  match s.pending with
  | some (t, v) => if t = txn then { versions := (t, v) :: s.versions, pending := none } else s
  | none => s

/-- Modelled from the spec: `finalize(txn)` discards all committed versions
≤ `txn` except the most recent of them. -/
def TxnLockState.finalize {V : Type} (s : TxnLockState V) (txn : Nat) : TxnLockState V :=
  match ((s.versions.filter (fun p => p.1 ≤ txn)).map Prod.fst).max? with
  | none => s
  | some m =>
    { versions := s.versions.filter (fun p => decide (txn < p.1) || decide (p.1 = m)),
      pending := s.pending }

/-- The three transactional resources touched by the `Transact` impl of
`BlockChain`: the `latest` lock, the subject, and the block file, each
modelled as a versioned transactional cell. -/
structure BlockChainLocks (V F : Type) where
  latest : TxnLockState Nat
  subject : TxnLockState V
  file : TxnLockState F
deriving DecidableEq

/-- Embeds `BlockChain::finalize` (src/host/src/chain/blockchain.rs lines
148-154): `join!(latest.finalize(txn_id), subject.commit(txn_id),
file.finalize(txn_id))` — note the `commit` on the subject. -/
def BlockChain.finalizeHook {V F : Type} (s : BlockChainLocks V F) (txnId : Nat) :
    BlockChainLocks V F :=
  { latest := s.latest.finalize txnId,
    subject := s.subject.commit txnId,
    file := s.file.finalize txnId }

/-! ## Sparse tensor coordinate table (src/host/tensor/src/sparse/mod.rs)

`SparseTensor::write_value_at` and `read_value` delegate to the accessor
(`SparseTable`, declared in the `table` submodule which is not in this
tree), so the row store is modelled from the spec. -/

/-- A tensor coordinate. -/
def Coord : Type := List Nat
deriving DecidableEq

/-- Modelled from the spec: the coordinate table of a sparse tensor — the
stored (coordinate, value) rows, with values of the tensor's dtype
represented as integers and `dtype.zero()` as 0. -/
abbrev SparseRows : Type := List (Coord × Int)

/-- Modelled from the spec: `write_value_at(txn, coord, value)` — if
`value == dtype.zero()` delete the row at `coord`, else upsert it. -/
def SparseRows.writeValueAt (rows : SparseRows) (coord : Coord) (value : Int) : SparseRows :=
  if value = 0 then
    rows.filter (fun r => decide (r.1 ≠ coord))
  else
    (coord, value) :: rows.filter (fun r => decide (r.1 ≠ coord))

/-- Modelled from the spec: `read_value_at(txn, coord)` reads the row at
`coord` and returns `dtype.zero()` when it is absent. -/
def SparseRows.readValueAt (rows : SparseRows) (coord : Coord) : Int :=
  match rows.find? (fun r => decide (r.1 = coord)) with
  | some r => r.2
  | none => 0

/-- A sequence of `write_value_at` calls applied in order. -/
def SparseRows.applyWrites (rows : SparseRows) (writes : List (Coord × Int)) : SparseRows :=
  writes.foldl (fun s w => s.writeValueAt w.1 w.2) rows

/-! ## Tensor reductions

Two generations of the tensor code appear in the tree: the enum dispatch in
src/src/state/tensor/mod.rs and the sparse engine in
src/host/tensor/src/sparse/mod.rs. -/

/-- Embeds the accumulation loop of `SparseTensor::sum_all`
(src/host/tensor/src/sparse/mod.rs lines 602-622): values stream into a
buffer of `PER_BLOCK` elements whose block sums accumulate into `sum`, and
a final partial buffer is flushed after the stream ends. -/
def sparseSumAllLoop (perBlock : Nat) : List Int → Int → List Int → Int
  | [], sum, buffer => if buffer.isEmpty then sum else sum + buffer.sum
  | v :: rest, sum, buffer =>
    let buffer' := buffer ++ [v]
    if buffer'.length = perBlock then sparseSumAllLoop perBlock rest (sum + buffer'.sum) []
    else sparseSumAllLoop perBlock rest sum buffer'

/-- Embeds `SparseTensor::sum_all` (src/host/tensor/src/sparse/mod.rs lines
602-622) over the filled stream of values, starting from the dtype zero
with an empty buffer.  `PER_BLOCK` (declared in the dense module, not in
this tree) is any fixed block size. -/
def sparseSumAll (perBlock : Nat) (filled : List Int) : Int :=
  sparseSumAllLoop perBlock filled 0 []

/-- The tensors of src/src/state/tensor/mod.rs, carrying their element
streams: a dense tensor's elements, or a sparse tensor's filled values. -/
inductive TensorM
  | dense (elems : List Int)
  | sparse (filledValues : List Int)
deriving DecidableEq

/-- Modelled from the spec: `DenseTensor::product_all` /
`SparseTensor::product_all` (the implementations live in dense.rs and
sparse.rs of the older tree, not in this tree) return the multiplicative
fold of the element stream. -/
def TensorM.product_all : TensorM → Int
  | TensorM.dense elems => elems.prod
  | TensorM.sparse filledValues => filledValues.prod

/-- Modelled from the spec: the additive fold that `sum_all` is specified
to return — the sum of the element stream. -/
def TensorM.specSumAll : TensorM → Int
  | TensorM.dense elems => elems.sum
  | TensorM.sparse filledValues => filledValues.sum

/-- Embeds `TensorReduce::sum_all for Tensor`
(src/src/state/tensor/mod.rs lines 401-407): both match arms dispatch to
`product_all` on the inner tensor. -/
def TensorM.sum_all : TensorM → Int
  | TensorM.dense elems => TensorM.product_all (TensorM.dense elems)
  | TensorM.sparse filledValues => TensorM.product_all (TensorM.sparse filledValues)

/-! ## Table index schemas (src/src/collection/table/index.rs) -/

/-- A column dtype (src/src/collection/schema.rs is not in this tree; only
the identity of the dtype matters here). -/
inductive ValType
  | number
  | text
deriving DecidableEq

/-- A schema column: name and dtype. -/
structure Column where
  name : String
  dtype : ValType
deriving DecidableEq

/-- An index schema: key columns and value columns
(src/src/collection/schema.rs, `IndexSchema`). -/
structure IndexSchema where
  key : List Column
  values : List Column
deriving DecidableEq

/-- The full ordered column list of an index schema: key then values. -/
def IndexSchema.columns (s : IndexSchema) : List Column :=
  s.key ++ s.values

/-- An `Index` (src/src/collection/table/index.rs lines 317-321), reduced
to its schema; the backing B-Tree does not affect the schema accessors or
the planner. -/
structure IndexM where
  schema : IndexSchema
deriving DecidableEq

/-- Embeds `Index::key` (src/src/collection/table/index.rs lines 408-410). -/
def IndexM.key (i : IndexM) : List Column :=
  i.schema.key

/-- Embeds `Index::values` (src/src/collection/table/index.rs lines
412-414). -/
def IndexM.values (i : IndexM) : List Column :=
  i.schema.values

/-- A `TableIndex` (src/src/collection/table/index.rs lines 616-620):
a primary index plus named auxiliary indices in declaration order. -/
structure TableIndexM where
  primary : IndexM
  auxiliary : List (String × IndexM)
deriving DecidableEq

/-- Embeds `TableIndex::key` (src/src/collection/table/index.rs lines
857-859): `self.primary.key()`. -/
def TableIndexM.key (t : TableIndexM) : List Column :=
  t.primary.key

/-- Embeds `TableIndex::values` (src/src/collection/table/index.rs lines
861-863).  The Rust body returns `self.primary.key()`. -/
def TableIndexM.values (t : TableIndexM) : List Column :=
  t.primary.key

/-! ## Table query planner (src/src/collection/table/index.rs,
`TableIndex::slice`)

`Bounds` (src/src/collection/table/bounds.rs is not in this tree) maps
column names to column bounds; it is modelled as an ordered association
list, matching how the planner re-collects it from ordered iterators.
The auxiliary list of a `TableIndexM` stands for the `BTreeMap`'s
name-ordered entries. -/

/-- A column bound: an exact value or a half-open range, with values of the
numeric dtype (src/src/collection/table/bounds.rs, `ColumnBound`). -/
inductive ColumnBound
  | isValue (v : Int)
  | inRange (lo hi : Int)
deriving DecidableEq

/-- Modelled from the spec: `bounds::validate(bounds, columns)` checks that
every bound refers to a declared column (bounds.rs is not in this tree). -/
def boundsValidate (bounds : List (String × ColumnBound)) (columns : List Column) : Bool :=
  bounds.all (fun b => columns.any (fun c => c.name = b.1))

/-- Embeds `Index::validate_bounds` (src/src/collection/table/index.rs
lines 449-470): after `bounds::validate`, the bound columns must equal the
leading columns of the index schema position by position, and each bound
must have the column's dtype (every `ColumnBound` here carries numeric
values). -/
def IndexM.validate_bounds (i : IndexM) (bounds : List (String × ColumnBound)) : Bool :=
  boundsValidate bounds i.schema.columns &&
  decide (bounds.length ≤ i.schema.columns.length) &&
  (List.zip i.schema.columns bounds).all
    (fun p => p.1.name = p.2.1 && p.1.dtype = ValType.number)

/-- One planning step of `TableIndex::slice`: the index whose
`validate_bounds` accepted the covered prefix, the covered bound columns,
and the index actually passed to `index_slice` as the merge source. -/
structure PlanStep where
  chosen : String
  subset : List String
  sliced : String
deriving DecidableEq

/-- The outcome of `TableIndex::slice` as far as planning is concerned. -/
inductive PlanOutcome
  | tableSlice (bounds : List (String × ColumnBound))
  | merged (steps : List PlanStep)
deriving DecidableEq

/-- The failure modes of the planning loop. -/
inductive PlanError
  | noSupportingIndex (remaining : List String)
  | slicePanic
  | indexSliceError
  | fuelExhausted
deriving DecidableEq

/-- Embeds the index search of the planning loop
(src/src/collection/table/index.rs lines 898-899): the primary first, then
the auxiliaries in the `BTreeMap`'s order; the first whose
`validate_bounds` accepts the subset is chosen. -/
def pickIndex (t : TableIndexM) (subset : List (String × ColumnBound)) : Option String :=
  if t.primary.validate_bounds subset then some "primary"
  else (t.auxiliary.find? (fun a => a.2.validate_bounds subset)).map Prod.fst

/-- The descending prefix lengths `(1..bounds.len() + 1).rev()` of one pass
of the planning loop. -/
def descRange (n : Nat) : List Nat :=
  ((List.range n).reverse).map (fun i => i + 1)

/-- Embeds the inner `for i` pass of `TableIndex::slice`
(src/src/collection/table/index.rs lines 895-913).  For each prefix length
`i` (fixed at entry to the pass), the subset `bounds[..i]` is offered to
every index; on a hit the covered bounds are stripped and — as in the Rust
source — `self.primary.index_slice(subset)` is recorded as the merge
source.  `Sum.inl` is the early return when no bounds remain; `Sum.inr`
hands the remaining bounds back to the outer loop.  `slicePanic` models
`&bounds[..i]` with `i` exceeding the current length. -/
def planInner (t : TableIndexM) :
    List Nat → List (String × ColumnBound) → List PlanStep →
    Except PlanError (List PlanStep ⊕ (List (String × ColumnBound) × List PlanStep))
  | [], bounds, steps => Except.ok (Sum.inr (bounds, steps))
  | i :: rest, bounds, steps =>
    if i ≤ bounds.length then
      let subset := bounds.take i
      match pickIndex t subset with
      | some chosenName =>
        let bounds' := bounds.drop i
        if boundsValidate subset t.primary.schema.columns then
          let step : PlanStep :=
            { chosen := chosenName, subset := subset.map Prod.fst, sliced := "primary" }
          if bounds'.isEmpty then Except.ok (Sum.inl (steps ++ [step]))
          else planInner t rest bounds' (steps ++ [step])
        else Except.error PlanError.indexSliceError
      | none => planInner t rest bounds steps
    else Except.error PlanError.slicePanic

/-- Embeds the outer `loop` of `TableIndex::slice`
(src/src/collection/table/index.rs lines 893-922): run a pass; if it made
no progress fail with `bad_request`, else re-plan the remainder.  The fuel
counts outer passes; each pass strips at least one bound, so
`bounds.length + 1` passes always suffice. -/
def planOuter (t : TableIndexM) :
    Nat → List (String × ColumnBound) → List PlanStep → Except PlanError (List PlanStep)
  | 0, _, _ => Except.error PlanError.fuelExhausted
  | Nat.succ fuel, bounds, steps =>
    match planInner t (descRange bounds.length) bounds steps with
    | Except.error e => Except.error e
    | Except.ok (Sum.inl plan) => Except.ok plan
    | Except.ok (Sum.inr (bounds', steps')) =>
      if bounds'.length = bounds.length then
        Except.error (PlanError.noSupportingIndex (bounds'.map Prod.fst))
      else planOuter t fuel bounds' steps'

/-- Embeds `TableIndex::slice` (src/src/collection/table/index.rs lines
871-923): if the primary supports the whole `Bounds`, return a direct
table slice; otherwise normalize the bounds into primary-column order and
run the planning loop. -/
def TableIndexM.slicePlan (t : TableIndexM) (bounds : List (String × ColumnBound)) :
    Except PlanError PlanOutcome :=
  if t.primary.validate_bounds bounds then
    Except.ok (PlanOutcome.tableSlice bounds)
  else
    let normalized := t.primary.schema.columns.filterMap
      (fun c => (bounds.lookup c.name).map (fun b => (c.name, b)))
    Except.map PlanOutcome.merged (planOuter t (normalized.length + 1) normalized [])

/-! ## Table index contents (src/src/collection/table/index.rs,
`TableIndex::upsert` / `delete_row`)

The row-level effect of `upsert` and `delete_row` on the primary index and
one auxiliary index.  `Row` is a full table row; `proj` projects it onto
the auxiliary index's schema (its chosen key columns followed by the
remaining primary-key columns, per `TableIndex::create_index`).  The
backing B-Tree operations (btree.rs is not in this tree) are modelled from
the spec: `insert` adds a key, `delete` with an exact `Key` selector
removes exactly that key. -/

/-- The contents of the primary index and of one auxiliary index at one
`TxnId`. -/
structure TableContent (Row Aux : Type) where
  primary : Finset Row
  aux : Finset Aux
deriving DecidableEq

/-- Embeds `TableIndex::delete_row` (src/src/collection/table/index.rs
lines 790-803): under the one `TxnId`, every index deletes its projection
of the row. -/
def TableContent.delete_row {Row Aux : Type} [DecidableEq Row] [DecidableEq Aux]
    (proj : Row → Aux) (s : TableContent Row Aux) (row : Row) : TableContent Row Aux :=
  { primary := s.primary.erase row, aux := s.aux.erase (proj row) }

/-- Embeds `TableIndex::upsert` (src/src/collection/table/index.rs lines
754-767): `delete_row` then, under the same `TxnId`, insert the row's
projection into every index. -/
def TableContent.upsert {Row Aux : Type} [DecidableEq Row] [DecidableEq Aux]
    (proj : Row → Aux) (s : TableContent Row Aux) (row : Row) : TableContent Row Aux :=
  let s' := s.delete_row proj row
  { primary := insert row s'.primary, aux := insert (proj row) s'.aux }

/-- The auxiliary index holds exactly the projections of the primary's
rows. -/
def TableContent.Aligned {Row Aux : Type} [DecidableEq Aux]
    (proj : Row → Aux) (s : TableContent Row Aux) : Prop :=
  s.aux = s.primary.image proj

/-- The invariant as claimed: every row present in the primary has a
matching auxiliary row projecting the same primary key, and no auxiliary
row matches a primary key absent from the primary. -/
def TableContent.Matching {Row Aux K : Type} (pk : Row → K) (pkA : Aux → K)
    (s : TableContent Row Aux) : Prop :=
  ∀ k, (∃ r ∈ s.primary, pk r = k) ↔ (∃ a ∈ s.aux, pkA a = k)

/-! ## Concrete instances used in the closed theorems below -/

/-- A numeric column named `a`. -/
def colA : Column := { name := "a", dtype := ValType.number }

/-- A numeric column named `b`. -/
def colB : Column := { name := "b", dtype := ValType.number }

/-- A numeric column named `c`. -/
def colC : Column := { name := "c", dtype := ValType.number }

/-- A table with primary key `(a)` and value column `(b)` and no auxiliary
indices. -/
def tableC9 : TableIndexM :=
  { primary := { schema := { key := [colA], values := [colB] } }, auxiliary := [] }

/-- The spec's seed scenario S2: a table with primary key `(a, b)`, value
column `(c)`, and one auxiliary index `by_c` whose key is `(c)` and whose
value columns are the primary key `(a, b)`. -/
def tableS2 : TableIndexM :=
  { primary := { schema := { key := [colA, colB], values := [colC] } },
    auxiliary := [("by_c", { schema := { key := [colC], values := [colA, colB] } })] }

/-- The S2 bounds `{a: Is(1), c: Is(2)}`. -/
def boundsS2 : List (String × ColumnBound) :=
  [("a", ColumnBound.isValue 1), ("c", ColumnBound.isValue 2)]

/-- An open chain block whose serialized size is exactly `BLOCK_SIZE`:
one mutation of 999,968 bytes after the 32-byte predecessor hash. -/
def blockC2 : ChainBlock := { pastHash := 0, mutations := [999968] }

/-- A blockchain state whose open block `0` is `blockC2`. -/
def chainC2 : BlockChainState := { latest := 0, file := [(0, blockC2)] }

/-- A subject lock with two committed versions at txn ids 1 and 2 and no
pending write. -/
def subjectC7 : TxnLockState Nat := { versions := [(2, 20), (1, 10)], pending := none }

/-- `BlockChain` resources for the finalize scenario: `latest` and the file
each also hold two committed versions. -/
def locksC7 : BlockChainLocks Nat Nat :=
  { latest := { versions := [(2, 1), (1, 0)], pending := none },
    subject := subjectC7,
    file := { versions := [(2, 7), (1, 5)], pending := none } }

/-- A consistent table content: the primary holds the full row `(1, 3)`
(primary key 1, value 3) and the auxiliary — which does not store the value
column — holds its projection `1`. -/
def tableC4 : TableContent (Nat × Nat) Nat := { primary := {(1, 3)}, aux := {1} }

theorem failCount_cons (p : Nat × Except TCError Unit) (rest : List (Nat × Except TCError Unit)) :
    failCount (p :: rest) = (if isFailRes p.2 then 1 else 0) + failCount rest := by
  by_cases h : isFailRes p.2
  · simp [failCount, List.filter_cons, h]
    omega
  · simp [failCount, List.filter_cons, h]

theorem failSet_cons (p : Nat × Except TCError Unit) (rest : List (Nat × Except TCError Unit)) :
    failSet (p :: rest) =
      if isFailRes p.2 then insert p.1 (failSet rest) else failSet rest := by
  by_cases h : isFailRes p.2 <;> simp [failSet, List.filter_cons, h]

theorem okSet_cons (p : Nat × Except TCError Unit) (rest : List (Nat × Except TCError Unit)) :
    okSet (p :: rest) =
      if isOkRes p.2 then insert p.1 (okSet rest) else okSet rest := by
  by_cases h : isOkRes p.2 <;> simp [okSet, List.filter_cons, h]

theorem replicateLoop_success (maxFailures : Nat) :
    ∀ (l : List (Nat × Except TCError Unit)) (failed succeeded : Finset Nat),
    (∀ p ∈ l, isConflictRes p.2 = false) →
    (∀ p ∈ l, isFailRes p.2 = true → p.1 ∉ failed) →
    ((l.filter (fun p => isFailRes p.2)).map Prod.fst).Nodup →
    failed.card + failCount l ≤ maxFailures →
    replicateLoop maxFailures failed succeeded l =
      FanResult.success (succeeded ∪ okSet l) (failed ∪ failSet l) := by
  intro l
  induction l with
  | nil =>
    intro failed succeeded _ _ _ _
    simp [replicateLoop, okSet, failSet, failCount]
  | cons hd rest ih =>
    obtain ⟨replica, result⟩ := hd
    intro failed succeeded hnoconf hfresh hnodup hcount
    cases result with
    | ok u =>
      have hle : ¬ maxFailures < failed.card := by
        have h1 : failed.card ≤ failed.card + failCount ((replica, Except.ok u) :: rest) :=
          Nat.le_add_right _ _
        omega
      have hfc : failCount ((replica, Except.ok u) :: rest) = failCount rest := by
        simp [failCount_cons, isFailRes]
      rw [show replicateLoop maxFailures failed succeeded ((replica, Except.ok u) :: rest) =
            (if maxFailures < failed.card then FanResult.assertFailure
             else replicateLoop maxFailures failed (insert replica succeeded) rest) from rfl]
      rw [if_neg hle]
      rw [ih failed (insert replica succeeded)
            (fun p hp => hnoconf p (List.mem_cons_of_mem _ hp))
            (fun p hp hf => hfresh p (List.mem_cons_of_mem _ hp) hf)
            (by simpa [List.filter_cons, isFailRes] using hnodup)
            (by omega)]
      rw [okSet_cons, failSet_cons]
      simp [isOkRes, isFailRes, Finset.insert_union]
    | error cause =>
      have hnc : ¬ cause.code = ErrorType.conflict := by
        have := hnoconf (replica, Except.error cause) (List.mem_cons_self _ _)
        simpa [isConflictRes] using this
      have hfail : isFailRes (Except.error cause) = true := by
        simp [isFailRes, hnc]
      have hmem : replica ∉ failed :=
        hfresh (replica, Except.error cause) (List.mem_cons_self _ _) hfail
      have hcard : (insert replica failed).card = failed.card + 1 :=
        Finset.card_insert_of_not_mem hmem
      have hfc : failCount ((replica, Except.error cause) :: rest) = 1 + failCount rest := by
        simp [failCount_cons, hfail]
      have hle : ¬ maxFailures < (insert replica failed).card := by omega
      rw [show replicateLoop maxFailures failed succeeded
              ((replica, Except.error cause) :: rest) =
            (if cause.code = ErrorType.conflict then FanResult.conflictError cause
             else if maxFailures < (insert replica failed).card then
               FanResult.quorumError cause
             else replicateLoop maxFailures (insert replica failed) succeeded rest) from rfl]
      rw [if_neg hnc, if_neg hle]
      have h0 : (replica :: (rest.filter (fun p => isFailRes p.2)).map Prod.fst).Nodup := by
        have h1 := hnodup
        rw [List.filter_cons, if_pos hfail, List.map_cons] at h1
        exact h1
      have hnodup' : ((rest.filter (fun p => isFailRes p.2)).map Prod.fst).Nodup :=
        h0.of_cons
      have hnotin : replica ∉ (rest.filter (fun p => isFailRes p.2)).map Prod.fst :=
        (List.nodup_cons.mp h0).1
      rw [ih (insert replica failed) succeeded
            (fun p hp => hnoconf p (List.mem_cons_of_mem _ hp))
            (fun p hp hf => by
              intro hin
              rcases Finset.mem_insert.mp hin with h | h
              · exact hnotin
                  (h ▸ List.mem_map_of_mem Prod.fst (List.mem_filter.mpr ⟨hp, hf⟩))
              · exact hfresh p (List.mem_cons_of_mem _ hp) hf h)
            hnodup'
            (by omega)]
      rw [okSet_cons, failSet_cons]
      simp [isOkRes, hfail, Finset.insert_union, Finset.union_insert]

theorem replicateLoop_conflict (maxFailures : Nat) :
    ∀ (l₁ : List (Nat × Except TCError Unit)) (failed succeeded : Finset Nat)
      (r : Nat) (e : TCError) (l₂ : List (Nat × Except TCError Unit)),
    e.code = ErrorType.conflict →
    (∀ p ∈ l₁, isConflictRes p.2 = false) →
    (∀ p ∈ l₁, isFailRes p.2 = true → p.1 ∉ failed) →
    ((l₁.filter (fun p => isFailRes p.2)).map Prod.fst).Nodup →
    failed.card + failCount l₁ ≤ maxFailures →
    replicateLoop maxFailures failed succeeded (l₁ ++ (r, Except.error e) :: l₂) =
      FanResult.conflictError e := by
  intro l₁
  induction l₁ with
  | nil =>
    intro failed succeeded r e l₂ he _ _ _ _
    rw [show replicateLoop maxFailures failed succeeded
            ([] ++ (r, Except.error e) :: l₂) =
          (if e.code = ErrorType.conflict then FanResult.conflictError e
           else if maxFailures < (insert r failed).card then FanResult.quorumError e
           else replicateLoop maxFailures (insert r failed) succeeded l₂) from rfl]
    rw [if_pos he]
  | cons hd rest ih =>
    obtain ⟨replica, result⟩ := hd
    intro failed succeeded r e l₂ he hnoconf hfresh hnodup hcount
    cases result with
    | ok u =>
      have hle : ¬ maxFailures < failed.card := by
        have h1 : failCount ((replica, Except.ok u) :: rest) = failCount rest := by
          simp [failCount_cons, isFailRes]
        omega
      rw [show replicateLoop maxFailures failed succeeded
              (((replica, Except.ok u) :: rest) ++ (r, Except.error e) :: l₂) =
            (if maxFailures < failed.card then FanResult.assertFailure
             else replicateLoop maxFailures failed (insert replica succeeded)
               (rest ++ (r, Except.error e) :: l₂)) from rfl]
      rw [if_neg hle]
      have hfc : failCount ((replica, Except.ok u) :: rest) = failCount rest := by
        simp [failCount_cons, isFailRes]
      exact ih failed (insert replica succeeded) r e l₂ he
        (fun p hp => hnoconf p (List.mem_cons_of_mem _ hp))
        (fun p hp hf => hfresh p (List.mem_cons_of_mem _ hp) hf)
        (by simpa [List.filter_cons, isFailRes] using hnodup)
        (by omega)
    | error cause =>
      have hnc : ¬ cause.code = ErrorType.conflict := by
        have := hnoconf (replica, Except.error cause) (List.mem_cons_self _ _)
        simpa [isConflictRes] using this
      have hfail : isFailRes (Except.error cause) = true := by
        simp [isFailRes, hnc]
      have hmem : replica ∉ failed :=
        hfresh (replica, Except.error cause) (List.mem_cons_self _ _) hfail
      have hcard : (insert replica failed).card = failed.card + 1 :=
        Finset.card_insert_of_not_mem hmem
      have hfc : failCount ((replica, Except.error cause) :: rest) = 1 + failCount rest := by
        simp [failCount_cons, hfail]
      have hle : ¬ maxFailures < (insert replica failed).card := by omega
      rw [show replicateLoop maxFailures failed succeeded
              (((replica, Except.error cause) :: rest) ++ (r, Except.error e) :: l₂) =
            (if cause.code = ErrorType.conflict then FanResult.conflictError cause
             else if maxFailures < (insert replica failed).card then
               FanResult.quorumError cause
             else replicateLoop maxFailures (insert replica failed) succeeded
               (rest ++ (r, Except.error e) :: l₂)) from rfl]
      rw [if_neg hnc, if_neg hle]
      have h0 : (replica :: (rest.filter (fun p => isFailRes p.2)).map Prod.fst).Nodup := by
        have h1 := hnodup
        rw [List.filter_cons, if_pos hfail, List.map_cons] at h1
        exact h1
      have hnotin : replica ∉ (rest.filter (fun p => isFailRes p.2)).map Prod.fst :=
        (List.nodup_cons.mp h0).1
      exact ih (insert replica failed) succeeded r e l₂ he
        (fun p hp => hnoconf p (List.mem_cons_of_mem _ hp))
        (fun p hp hf => by
          intro hin
          rcases Finset.mem_insert.mp hin with h | h
          · exact hnotin
              (h ▸ List.mem_map_of_mem Prod.fst (List.mem_filter.mpr ⟨hp, hf⟩))
          · exact hfresh p (List.mem_cons_of_mem _ hp) hf h)
        h0.of_cons
        (by omega)

theorem replicateLoop_quorum (maxFailures : Nat) :
    ∀ (l₁ : List (Nat × Except TCError Unit)) (failed succeeded : Finset Nat)
      (r : Nat) (e : TCError) (l₂ : List (Nat × Except TCError Unit)),
    ¬ e.code = ErrorType.conflict →
    (∀ p ∈ l₁, isConflictRes p.2 = false) →
    (∀ p ∈ l₁, isFailRes p.2 = true → p.1 ∉ failed) →
    ((l₁.filter (fun p => isFailRes p.2)).map Prod.fst).Nodup →
    r ∉ failed →
    (∀ p ∈ l₁, isFailRes p.2 = true → p.1 ≠ r) →
    failed.card + failCount l₁ = maxFailures →
    replicateLoop maxFailures failed succeeded (l₁ ++ (r, Except.error e) :: l₂) =
      FanResult.quorumError e := by
  intro l₁
  induction l₁ with
  | nil =>
    intro failed succeeded r e l₂ he _ _ _ hrf _ hcount
    have hcard : (insert r failed).card = failed.card + 1 :=
      Finset.card_insert_of_not_mem hrf
    have hgt : maxFailures < (insert r failed).card := by
      simp [failCount] at hcount
      omega
    rw [show replicateLoop maxFailures failed succeeded
            ([] ++ (r, Except.error e) :: l₂) =
          (if e.code = ErrorType.conflict then FanResult.conflictError e
           else if maxFailures < (insert r failed).card then FanResult.quorumError e
           else replicateLoop maxFailures (insert r failed) succeeded l₂) from rfl]
    rw [if_neg he, if_pos hgt]
  | cons hd rest ih =>
    obtain ⟨replica, result⟩ := hd
    intro failed succeeded r e l₂ he hnoconf hfresh hnodup hrf hrne hcount
    cases result with
    | ok u =>
      have hfc : failCount ((replica, Except.ok u) :: rest) = failCount rest := by
        simp [failCount_cons, isFailRes]
      have hle : ¬ maxFailures < failed.card := by omega
      rw [show replicateLoop maxFailures failed succeeded
              (((replica, Except.ok u) :: rest) ++ (r, Except.error e) :: l₂) =
            (if maxFailures < failed.card then FanResult.assertFailure
             else replicateLoop maxFailures failed (insert replica succeeded)
               (rest ++ (r, Except.error e) :: l₂)) from rfl]
      rw [if_neg hle]
      exact ih failed (insert replica succeeded) r e l₂ he
        (fun p hp => hnoconf p (List.mem_cons_of_mem _ hp))
        (fun p hp hf => hfresh p (List.mem_cons_of_mem _ hp) hf)
        (by simpa [List.filter_cons, isFailRes] using hnodup)
        hrf
        (fun p hp hf => hrne p (List.mem_cons_of_mem _ hp) hf)
        (by omega)
    | error cause =>
      have hnc : ¬ cause.code = ErrorType.conflict := by
        have := hnoconf (replica, Except.error cause) (List.mem_cons_self _ _)
        simpa [isConflictRes] using this
      have hfail : isFailRes (Except.error cause) = true := by
        simp [isFailRes, hnc]
      have hmem : replica ∉ failed :=
        hfresh (replica, Except.error cause) (List.mem_cons_self _ _) hfail
      have hcard : (insert replica failed).card = failed.card + 1 :=
        Finset.card_insert_of_not_mem hmem
      have hfc : failCount ((replica, Except.error cause) :: rest) = 1 + failCount rest := by
        simp [failCount_cons, hfail]
      have hle : ¬ maxFailures < (insert replica failed).card := by omega
      rw [show replicateLoop maxFailures failed succeeded
              (((replica, Except.error cause) :: rest) ++ (r, Except.error e) :: l₂) =
            (if cause.code = ErrorType.conflict then FanResult.conflictError cause
             else if maxFailures < (insert replica failed).card then
               FanResult.quorumError cause
             else replicateLoop maxFailures (insert replica failed) succeeded
               (rest ++ (r, Except.error e) :: l₂)) from rfl]
      rw [if_neg hnc, if_neg hle]
      have h0 : (replica :: (rest.filter (fun p => isFailRes p.2)).map Prod.fst).Nodup := by
        have h1 := hnodup
        rw [List.filter_cons, if_pos hfail, List.map_cons] at h1
        exact h1
      have hnotin : replica ∉ (rest.filter (fun p => isFailRes p.2)).map Prod.fst :=
        (List.nodup_cons.mp h0).1
      have hner : replica ≠ r :=
        hrne (replica, Except.error cause) (List.mem_cons_self _ _) hfail
      exact ih (insert replica failed) succeeded r e l₂ he
        (fun p hp => hnoconf p (List.mem_cons_of_mem _ hp))
        (fun p hp hf => by
          intro hin
          rcases Finset.mem_insert.mp hin with h | h
          · exact hnotin
              (h ▸ List.mem_map_of_mem Prod.fst (List.mem_filter.mpr ⟨hp, hf⟩))
          · exact hfresh p (List.mem_cons_of_mem _ hp) hf h)
        h0.of_cons
        (fun hin => (Finset.mem_insert.mp hin).elim (fun h => hner h.symm)
          (fun h => hrf h))
        (fun p hp hf => hrne p (List.mem_cons_of_mem _ hp) hf)
        (by omega)

/-- The quorum check never fires immediately after a successful result:
starting from a `failed` set within the quorum bound, the loop cannot reach
the `assert!(result.is_err())` panic state. -/
theorem replicateLoop_no_assert (maxFailures : Nat) :
    ∀ (l : List (Nat × Except TCError Unit)) (failed succeeded : Finset Nat),
    failed.card ≤ maxFailures →
    replicateLoop maxFailures failed succeeded l ≠ FanResult.assertFailure := by
  intro l
  induction l with
  | nil => intro failed succeeded _; simp [replicateLoop]
  | cons hd rest ih =>
    obtain ⟨replica, result⟩ := hd
    intro failed succeeded hcard
    cases result with
    | ok u =>
      rw [show replicateLoop maxFailures failed succeeded ((replica, Except.ok u) :: rest) =
            (if maxFailures < failed.card then FanResult.assertFailure
             else replicateLoop maxFailures failed (insert replica succeeded) rest) from rfl]
      rw [if_neg (by omega)]
      exact ih failed (insert replica succeeded) hcard
    | error cause =>
      rw [show replicateLoop maxFailures failed succeeded
              ((replica, Except.error cause) :: rest) =
            (if cause.code = ErrorType.conflict then FanResult.conflictError cause
             else if maxFailures < (insert replica failed).card then
               FanResult.quorumError cause
             else replicateLoop maxFailures (insert replica failed) succeeded rest) from rfl]
      by_cases hc : cause.code = ErrorType.conflict
      · rw [if_pos hc]; intro h; cases h
      · rw [if_neg hc]
        by_cases hq : maxFailures < (insert replica failed).card
        · rw [if_pos hq]; intro h; cases h
        · rw [if_neg hq]
          exact ih (insert replica failed) succeeded (by omega)

/-- C1: for a replicated PUT/DELETE fan-out over N replicas (one result per
replica, listed in arrival order), `replicate_write` returns the conflict
error as soon as a conflict arrives (provided the quorum bound has not
already tripped), returns the most recent error at the moment the number of
non-conflict failures exceeds `max_failures = N / 2`, and otherwise returns
success, issuing a `DELETE replicas={failed}` request to every replica that
succeeded. -/
theorem claim_c1_replicate_write_fanout
    (results : List (Nat × Except TCError Unit))
    (hnodup : (results.map Prod.fst).Nodup) :
    (∀ (l₁ : List (Nat × Except TCError Unit)) (r : Nat) (e : TCError) l₂,
       results = l₁ ++ (r, Except.error e) :: l₂ →
       e.code = ErrorType.conflict →
       (∀ p ∈ l₁, isConflictRes p.2 = false) →
       failCount l₁ ≤ results.length / 2 →
       replicateWrite results = FanResult.conflictError e) ∧
    (∀ (l₁ : List (Nat × Except TCError Unit)) (r : Nat) (e : TCError) l₂,
       results = l₁ ++ (r, Except.error e) :: l₂ →
       ¬ e.code = ErrorType.conflict →
       (∀ p ∈ l₁, isConflictRes p.2 = false) →
       failCount l₁ = results.length / 2 →
       replicateWrite results = FanResult.quorumError e) ∧
    ((∀ p ∈ results, isConflictRes p.2 = false) →
       failCount results ≤ results.length / 2 →
       replicateWrite results = FanResult.success (okSet results) (failSet results) ∧
       issuedDeletes (replicateWrite results) =
         (okSet results).image (fun replica => (replica, failSet results))) := by
  refine ⟨?_, ?_, ?_⟩
  · intro l₁ r e l₂ heq he hnoconf hcnt
    have hsub : ((l₁.filter (fun p => isFailRes p.2)).map Prod.fst).Nodup := by
      refine List.Nodup.sublist (List.Sublist.map _ (List.filter_sublist _)) ?_
      have := hnodup
      rw [heq, List.map_append] at this
      exact (List.nodup_append.mp this).1
    rw [replicateWrite, heq]
    exact replicateLoop_conflict _ l₁ ∅ ∅ r e l₂ he hnoconf
      (fun p _ _ => Finset.not_mem_empty _)
      hsub
      (by rw [heq] at hcnt; simpa using hcnt)
  · intro l₁ r e l₂ heq he hnoconf hcnt
    have hmapnd := hnodup
    rw [heq, List.map_append] at hmapnd
    obtain ⟨hnd₁, _, hdisj⟩ := List.nodup_append.mp hmapnd
    have hsub : ((l₁.filter (fun p => isFailRes p.2)).map Prod.fst).Nodup :=
      List.Nodup.sublist (List.Sublist.map _ (List.filter_sublist _)) hnd₁
    have hrne : ∀ p ∈ l₁, isFailRes p.2 = true → p.1 ≠ r := by
      intro p hp _ hpr
      have hin : p.1 ∈ l₁.map Prod.fst := List.mem_map_of_mem Prod.fst hp
      have hout : p.1 ∉ List.map Prod.fst ((r, Except.error e) :: l₂) := hdisj hin
      exact hout (by rw [hpr]; simp)
    rw [replicateWrite, heq]
    exact replicateLoop_quorum _ l₁ ∅ ∅ r e l₂ he hnoconf
      (fun p _ _ => Finset.not_mem_empty _)
      hsub
      (Finset.not_mem_empty _)
      hrne
      (by rw [heq] at hcnt; simpa using hcnt)
  · intro hnoconf hcnt
    have hsub : ((results.filter (fun p => isFailRes p.2)).map Prod.fst).Nodup :=
      List.Nodup.sublist (List.Sublist.map _ (List.filter_sublist _)) hnodup
    have hmain : replicateWrite results =
        FanResult.success (okSet results) (failSet results) := by
      rw [replicateWrite]
      rw [replicateLoop_success _ results ∅ ∅ hnoconf
        (fun p _ _ => Finset.not_mem_empty _) hsub (by simpa using hcnt)]
      simp
    exact ⟨hmain, by rw [hmain]; rfl⟩

/-- C1 witness: with 5 replicas of which replicas 1 and 3 fail with an
internal error and 0, 2, 4 succeed, the fan-out returns success and issues
`DELETE replicas={1,3}` to each of 0, 2, 4. -/
theorem claim_c1_replicate_write_fanout_witness :
    replicateWrite
        [(0, Except.ok ()), (1, Except.error (TCError.mkInternal "io")),
         (2, Except.ok ()), (3, Except.error (TCError.mkInternal "io")),
         (4, Except.ok ())] =
      FanResult.success {0, 2, 4} {1, 3} := by
  have h := (claim_c1_replicate_write_fanout
      [(0, Except.ok ()), (1, Except.error (TCError.mkInternal "io")),
       (2, Except.ok ()), (3, Except.error (TCError.mkInternal "io")),
       (4, Except.ok ())] (by decide)).2.2
      (by decide) (by decide)
  rw [h.1]
  have hok : okSet
      [(0, Except.ok ()), (1, Except.error (TCError.mkInternal "io")),
       (2, Except.ok ()), (3, Except.error (TCError.mkInternal "io")),
       (4, Except.ok ())] = ({0, 2, 4} : Finset Nat) := by decide
  have hfail : failSet
      [(0, Except.ok ()), (1, Except.error (TCError.mkInternal "io")),
       (2, Except.ok ()), (3, Except.error (TCError.mkInternal "io")),
       (4, Except.ok ())] = ({1, 3} : Finset Nat) := by decide
  rw [hok, hfail]

/-- C10: the assertion `assert!(result.is_err())` in `replicate_write` is
valid: starting from empty accumulators, whenever the quorum check
`|failed| > max_failures` fires immediately after a result is processed,
that result is an error, so the panic state is unreachable for every
interleaving of replica results. -/
theorem claim_c10_assert_valid (results : List (Nat × Except TCError Unit)) :
    replicateWrite results ≠ FanResult.assertFailure :=
  replicateLoop_no_assert _ results ∅ ∅ (by simp)

/-- C6: the transport maps each error kind to its canonical HTTP status,
but `TCError::bad_request` constructs an error of kind `internal` (mapped
to 500), not `bad_request` (mapped to 400), contradicting its own doc
comment. -/
theorem claim_c6_bad_request_kind :
    (TCError.bad_request "expected a Link, not" "x").code = ErrorType.internal ∧
    ErrorType.internal ≠ ErrorType.badRequest ∧
    transformErrorStatus (TCError.bad_request "expected a Link, not" "x").code = 500 ∧
    transformErrorStatus ErrorType.badRequest = 400 ∧
    transformErrorStatus ErrorType.conflict = 409 ∧
    transformErrorStatus ErrorType.forbidden = 403 ∧
    transformErrorStatus ErrorType.internal = 500 ∧
    transformErrorStatus ErrorType.methodNotAllowed = 405 ∧
    transformErrorStatus ErrorType.notFound = 404 ∧
    transformErrorStatus ErrorType.notImplemented = 501 ∧
    transformErrorStatus ErrorType.timeout = 408 ∧
    transformErrorStatus ErrorType.unauthorized = 401 := by
  refine ⟨rfl, by decide, rfl, rfl, rfl, rfl, rfl, rfl, rfl, rfl, rfl, rfl⟩

/-- C7: `BlockChain::finalize` leaves the subject's committed versions
untouched — it invokes `commit` on the subject, not the `finalize` hook the
claim describes.  At txn id 2 the subject keeps both versions, while the
claimed finalize hook would discard everything at or below 2 except the
most recent. -/
theorem claim_c7_finalize_commits_subject :
    (BlockChain.finalizeHook locksC7 2).subject = subjectC7 ∧
    TxnLockState.finalize subjectC7 2 =
      { versions := [(2, 20)], pending := none } ∧
    (BlockChain.finalizeHook locksC7 2).subject ≠ TxnLockState.finalize subjectC7 2 := by
  refine ⟨rfl, by decide, by decide⟩

/-- C8: the chunked accumulation loop of the sparse engine's `sum_all`
computes the additive fold of the filled stream for every block size, but
the `Tensor` dispatch of the older tree sends `sum_all` to `product_all`:
on the dense tensor `[2, 3]` it returns the product 6 instead of the sum
5. -/
theorem claim_c8_sum_dispatches_to_product :
    (∀ (perBlock : Nat) (filled : List Int), sparseSumAll perBlock filled = filled.sum) ∧
    TensorM.sum_all (TensorM.dense [2, 3]) = 6 ∧
    TensorM.specSumAll (TensorM.dense [2, 3]) = 5 ∧
    TensorM.sum_all (TensorM.dense [2, 3]) = TensorM.product_all (TensorM.dense [2, 3]) := by
  refine ⟨?_, by decide, by decide, rfl⟩
  intro perBlock filled
  have key : ∀ (l : List Int) (sum : Int) (buffer : List Int),
      sparseSumAllLoop perBlock l sum buffer = sum + buffer.sum + l.sum := by
    intro l
    induction l with
    | nil =>
      intro sum buffer
      cases buffer with
      | nil => simp [sparseSumAllLoop]
      | cons x xs => simp [sparseSumAllLoop]
    | cons v rest ih =>
      intro sum buffer
      rw [show sparseSumAllLoop perBlock (v :: rest) sum buffer =
            (if (buffer ++ [v]).length = perBlock then
               sparseSumAllLoop perBlock rest (sum + (buffer ++ [v]).sum) []
             else sparseSumAllLoop perBlock rest sum (buffer ++ [v])) from rfl]
      by_cases h : (buffer ++ [v]).length = perBlock
      · rw [if_pos h, ih]
        simp
        ring
      · rw [if_neg h, ih]
        simp
        ring
  rw [sparseSumAll, key]
  simp

/-- C9: `Index::values` returns the schema's value columns, but
`TableIndex::values` returns the primary key columns: on a table with key
`(a)` and values `(b)` it yields `[a]`, not the remaining column `[b]`. -/
theorem claim_c9_table_values_returns_key :
    IndexM.values tableC9.primary = [colB] ∧
    TableIndexM.key tableC9 = [colA] ∧
    TableIndexM.values tableC9 = [colA] ∧
    TableIndexM.values tableC9 ≠ IndexM.values tableC9.primary := by
  refine ⟨rfl, rfl, rfl, by decide⟩

/-- C3: on the spec's scenario S2 (`slice {a: Is(1), c: Is(2)}` against a
table with primary key `(a, b)` and auxiliary index `by_c`), the planner
chooses the primary for the prefix `a` and the auxiliary `by_c` for the
remainder `c`, but both merge sources are built by
`self.primary.index_slice(subset)`: the chosen auxiliary index is never the
one sliced. -/
theorem claim_c3_slice_always_slices_primary :
    TableIndexM.slicePlan tableS2 boundsS2 =
      Except.ok (PlanOutcome.merged
        [{ chosen := "primary", subset := ["a"], sliced := "primary" },
         { chosen := "by_c", subset := ["c"], sliced := "primary" }]) ∧
    ("by_c" : String) ≠ "primary" := by
  refine ⟨by rfl, by decide⟩

/-- C2 counterexample: an open block of size exactly `BLOCK_SIZE`
(1,000,000 bytes) is not strictly above the threshold, yet commit seals it:
`latest` becomes 1 and a successor block seeded with the block's content
hash is created, refuting the claim that the ordinal is unchanged at or
below the threshold. -/
theorem claim_c2_counterexample :
    blockC2.size ≤ BLOCK_SIZE ∧
    chainC2.latest = 0 ∧
    BlockChain.commitStep chainC2 =
      some { latest := 1,
             file := (1, ChainBlock.new blockC2.contentHash) :: chainC2.file } := by
  refine ⟨by decide, rfl, by decide⟩

/-- C2 amended: `BlockChain::commit` seals the open block and increments
`latest` by one exactly when the block's serialized size is at least
`BLOCK_SIZE` (1,000,000 bytes); strictly below the threshold the state is
unchanged. -/
theorem claim_c2_seal_iff (s : BlockChainState) (block : ChainBlock)
    (h : s.file.lookup s.latest = some block) :
    (BLOCK_SIZE ≤ block.size →
       BlockChain.commitStep s =
         some { latest := s.latest + 1,
                file := (s.latest + 1, ChainBlock.new block.contentHash) :: s.file }) ∧
    (block.size < BLOCK_SIZE → BlockChain.commitStep s = some s) := by
  constructor
  · intro hs
    rw [BlockChain.commitStep, h]
    simp only [if_pos hs]
  · intro hs
    rw [BlockChain.commitStep, h]
    simp only [if_neg (by omega : ¬ BLOCK_SIZE ≤ block.size)]

/-- C2 witness: the amended claim applied to the concrete chain whose open
block has size exactly `BLOCK_SIZE`. -/
theorem claim_c2_seal_iff_witness :
    chainC2.file.lookup chainC2.latest = some blockC2 ∧
    BlockChain.commitStep chainC2 =
      some { latest := 1,
             file := (1, ChainBlock.new blockC2.contentHash) :: chainC2.file } :=
  ⟨by decide, (claim_c2_seal_iff chainC2 blockC2 (by decide)).1 (by decide)⟩

/-- A single `write_value_at` never stores a zero value. -/
theorem writeValueAt_keeps_nonzero (rows : SparseRows) (coord : Coord) (v : Int)
    (h : ∀ r ∈ rows, r.2 ≠ 0) : ∀ r ∈ rows.writeValueAt coord v, r.2 ≠ 0 := by
  intro r hr
  by_cases hv : v = 0
  · rw [SparseRows.writeValueAt, if_pos hv] at hr
    exact h r (List.mem_of_mem_filter hr)
  · rw [SparseRows.writeValueAt, if_neg hv] at hr
    rcases List.mem_cons.mp hr with h1 | h1
    · rw [h1]
      exact hv
    · exact h r (List.mem_of_mem_filter h1)

/-- C5: writing the dtype zero deletes the row at the coordinate, writing a
non-zero value upserts it (and a read then returns it); reading an absent
coordinate returns the dtype zero; and from any zero-free store, every
sequence of writes leaves the store zero-free. -/
theorem claim_c5_sparse_zero_invariant :
    (∀ (rows : SparseRows) (coord : Coord),
       (∀ r ∈ rows, r.1 ≠ coord) → rows.readValueAt coord = 0) ∧
    (∀ (rows : SparseRows) (coord : Coord),
       ∀ r ∈ rows.writeValueAt coord 0, r.1 ≠ coord) ∧
    (∀ (rows : SparseRows) (coord : Coord) (v : Int), v ≠ 0 →
       (coord, v) ∈ rows.writeValueAt coord v ∧
       (rows.writeValueAt coord v).readValueAt coord = v) ∧
    (∀ (rows : SparseRows), (∀ r ∈ rows, r.2 ≠ 0) →
       ∀ (writes : List (Coord × Int)), ∀ r ∈ rows.applyWrites writes, r.2 ≠ 0) := by
  refine ⟨?_, ?_, ?_, ?_⟩
  · intro rows coord h
    have hnone : rows.find? (fun r => decide (r.1 = coord)) = none :=
      List.find?_eq_none.mpr (fun x hx => by simpa using h x hx)
    rw [SparseRows.readValueAt, hnone]
  · intro rows coord r hr
    rw [SparseRows.writeValueAt, if_pos rfl] at hr
    simpa using (List.mem_filter.mp hr).2
  · intro rows coord v hv
    constructor
    · rw [SparseRows.writeValueAt, if_neg hv]
      exact List.mem_cons_self _ _
    · rw [SparseRows.writeValueAt, if_neg hv, SparseRows.readValueAt,
        List.find?_cons_of_pos _ (by simp)]
  · intro rows hz writes
    induction writes generalizing rows with
    | nil => simpa [SparseRows.applyWrites] using hz
    | cons w ws ih =>
      have hstep : ∀ r ∈ rows.writeValueAt w.1 w.2, r.2 ≠ 0 :=
        writeValueAt_keeps_nonzero rows w.1 w.2 hz
      have : SparseRows.applyWrites rows (w :: ws) =
          SparseRows.applyWrites (rows.writeValueAt w.1 w.2) ws := rfl
      rw [this]
      exact ih _ hstep

/-- C5 witness: the spec's seed scenario S4 — writing zero at `[1, 2]` into
an empty store leaves no row and reading `[1, 2]` back yields zero. -/
theorem claim_c5_sparse_zero_invariant_witness :
    (∀ r ∈ SparseRows.applyWrites [] [([1, 2], 0)], r.2 ≠ 0) ∧
    SparseRows.readValueAt (SparseRows.applyWrites [] [([1, 2], 0)]) [1, 2] = 0 :=
  ⟨claim_c5_sparse_zero_invariant.2.2.2 [] (by simp) [([1, 2], 0)],
   claim_c5_sparse_zero_invariant.1 (SparseRows.applyWrites [] [([1, 2], 0)]) [1, 2]
     (by decide)⟩

/-- `upsert` preserves the alignment of the auxiliary index with the
primary, unconditionally. -/
theorem upsert_aligned {Row Aux : Type} [DecidableEq Row] [DecidableEq Aux]
    (proj : Row → Aux) (s : TableContent Row Aux) (row : Row)
    (h : s.Aligned proj) : (s.upsert proj row).Aligned proj := by
  have hgoal : insert (proj row) ((s.primary.image proj).erase (proj row)) =
      (insert row (s.primary.erase row)).image proj := by
    rw [Finset.image_insert]
    ext a
    constructor
    · intro ha
      rcases Finset.mem_insert.mp ha with rfl | ha
      · exact Finset.mem_insert_self _ _
      · obtain ⟨hne, ha⟩ := Finset.mem_erase.mp ha
        obtain ⟨r', hr', rfl⟩ := Finset.mem_image.mp ha
        have hr'row : r' ≠ row := by
          intro heq
          exact hne (by rw [heq])
        exact Finset.mem_insert_of_mem
          (Finset.mem_image_of_mem proj (Finset.mem_erase.mpr ⟨hr'row, hr'⟩))
    · intro ha
      rcases Finset.mem_insert.mp ha with rfl | ha
      · exact Finset.mem_insert_self _ _
      · obtain ⟨r', hr', rfl⟩ := Finset.mem_image.mp ha
        obtain ⟨hr'row, hr'p⟩ := Finset.mem_erase.mp hr'
        by_cases heq : proj r' = proj row
        · rw [heq]
          exact Finset.mem_insert_self _ _
        · exact Finset.mem_insert_of_mem
            (Finset.mem_erase.mpr ⟨heq, Finset.mem_image_of_mem proj hr'p⟩)
  show insert (proj row) (s.aux.erase (proj row)) = _
  rw [h]
  exact hgoal

/-- `delete_row` preserves alignment provided no other primary row shares
the deleted row's projection into the auxiliary index. -/
theorem delete_row_aligned {Row Aux : Type} [DecidableEq Row] [DecidableEq Aux]
    (proj : Row → Aux) (s : TableContent Row Aux) (row : Row)
    (h : s.Aligned proj)
    (huniq : ∀ r ∈ s.primary, proj r = proj row → r = row) :
    (s.delete_row proj row).Aligned proj := by
  show s.aux.erase (proj row) = (s.primary.erase row).image proj
  rw [h]
  ext a
  constructor
  · intro ha
    obtain ⟨hne, ha⟩ := Finset.mem_erase.mp ha
    obtain ⟨r', hr', rfl⟩ := Finset.mem_image.mp ha
    have hr'row : r' ≠ row := by
      intro heq
      exact hne (by rw [heq])
    exact Finset.mem_image_of_mem proj (Finset.mem_erase.mpr ⟨hr'row, hr'⟩)
  · intro ha
    obtain ⟨r', hr', rfl⟩ := Finset.mem_image.mp ha
    obtain ⟨hr'row, hr'p⟩ := Finset.mem_erase.mp hr'
    refine Finset.mem_erase.mpr ⟨?_, Finset.mem_image_of_mem proj hr'p⟩
    intro heq
    exact hr'row (huniq r' hr'p heq)

/-- Alignment implies the claimed primary-key-level consistency. -/
theorem aligned_matching {Row Aux K : Type} [DecidableEq Aux]
    (pk : Row → K) (proj : Row → Aux) (pkA : Aux → K)
    (hcompat : ∀ r, pkA (proj r) = pk r)
    (s : TableContent Row Aux) (h : s.Aligned proj) : s.Matching pk pkA := by
  intro k
  constructor
  · rintro ⟨r, hr, rfl⟩
    exact ⟨proj r, by rw [h]; exact Finset.mem_image_of_mem proj hr, hcompat r⟩
  · rintro ⟨a, ha, hk⟩
    rw [h] at ha
    obtain ⟨r, hr, rfl⟩ := Finset.mem_image.mp ha
    exact ⟨r, hr, by rw [← hcompat r, hk]⟩

/-- C4 counterexample: from the consistent content whose primary holds the
full row `(1, 3)` and whose auxiliary holds its projection `1`, the
successful call `delete_row (1, 5)` — a schema-valid row that differs from
the stored row only in a column the auxiliary does not keep — removes the
auxiliary row but not the primary row, breaking the claimed invariant. -/
theorem claim_c4_counterexample :
    tableC4.Aligned Prod.fst ∧
    (1, 3) ∈ (tableC4.delete_row Prod.fst (1, 5)).primary ∧
    (tableC4.delete_row Prod.fst (1, 5)).aux = ∅ ∧
    ¬ (tableC4.delete_row Prod.fst (1, 5)).Matching Prod.fst id := by
  refine ⟨by unfold TableContent.Aligned; decide, by decide, by decide, ?_⟩
  intro h
  obtain ⟨a, ha, _⟩ := (h 1).mp ⟨(1, 3), by decide, rfl⟩
  have hempty : (tableC4.delete_row Prod.fst (1, 5)).aux = ∅ := by decide
  rw [hempty] at ha
  exact absurd ha (Finset.not_mem_empty a)

/-- C4 amended: from an aligned state, `upsert` preserves the invariant
(each auxiliary holds exactly the projections of the primary's rows, hence
the claimed per-primary-key matching) under the one `TxnId`; `delete_row`
preserves it provided no primary row other than the argument itself has the
argument's projection — in particular whenever the deleted row is taken
from a primary with unique keys. -/
theorem claim_c4_index_consistency {Row Aux K : Type} [DecidableEq Row] [DecidableEq Aux]
    (pk : Row → K) (proj : Row → Aux) (pkA : Aux → K)
    (hcompat : ∀ r, pkA (proj r) = pk r)
    (s : TableContent Row Aux) (row : Row)
    (halign : s.Aligned proj) :
    ((s.upsert proj row).Aligned proj ∧ (s.upsert proj row).Matching pk pkA) ∧
    ((∀ r ∈ s.primary, proj r = proj row → r = row) →
      (s.delete_row proj row).Aligned proj ∧ (s.delete_row proj row).Matching pk pkA) := by
  constructor
  · have ha := upsert_aligned proj s row halign
    exact ⟨ha, aligned_matching pk proj pkA hcompat _ ha⟩
  · intro huniq
    have ha := delete_row_aligned proj s row halign huniq
    exact ⟨ha, aligned_matching pk proj pkA hcompat _ ha⟩

/-- C4 witness: on the concrete consistent content, upserting `(1, 7)` and
deleting the stored row `(1, 3)` both preserve the invariant. -/
theorem claim_c4_index_consistency_witness :
    tableC4.Aligned Prod.fst ∧
    ((tableC4.upsert Prod.fst (1, 7)).Aligned Prod.fst ∧
      (tableC4.upsert Prod.fst (1, 7)).Matching Prod.fst id) ∧
    ((tableC4.delete_row Prod.fst (1, 3)).Aligned Prod.fst ∧
      (tableC4.delete_row Prod.fst (1, 3)).Matching Prod.fst id) :=
  ⟨by unfold TableContent.Aligned; decide,
   (claim_c4_index_consistency Prod.fst Prod.fst id (fun r => rfl) tableC4 (1, 7)
     (by unfold TableContent.Aligned; decide)).1,
   (claim_c4_index_consistency Prod.fst Prod.fst id (fun r => rfl) tableC4 (1, 3)
     (by unfold TableContent.Aligned; decide)).2 (by decide)⟩

end Tinychain
